import Mathlib

/-!
# Verification of gitoxide components against their specification

Shallow embedding of selected functions of the `git-oxide` repository:
the parallel chunk-size heuristic, the packet-line codec, the reflog line
parser, time formatting, capability detection during handshake, and the
reference transaction engine. Byte strings are modelled as `List Nat`
(each element a byte value), machine integers as `Nat`/`Int`.
-/

namespace Gitoxide

/-- ASCII bytes of a Lean string, used to transcribe byte literals of the source. -/
def strB (s : String) : List Nat := s.toList.map Char.toNat

/-- Lowercase hexadecimal digit for a nibble, as in the `hex` crate used by the source. -/
def hexDigit (n : Nat) : Nat := if n < 10 then 48 + n else 87 + n

/-- Value of a hexadecimal ASCII digit, `none` when the byte is not a hex digit. -/
def hexVal (b : Nat) : Option Nat :=
  if 48 ≤ b ∧ b ≤ 57 then some (b - 48)
  else if 97 ≤ b ∧ b ≤ 102 then some (b - 87)
  else if 65 ≤ b ∧ b ≤ 70 then some (b - 55)
  else none

/-- Is the byte an ASCII hex digit (`u8::is_ascii_hexdigit`). -/
def isHexDigitB (b : Nat) : Bool :=
  (48 ≤ b ∧ b ≤ 57) ∨ (97 ≤ b ∧ b ≤ 102) ∨ (65 ≤ b ∧ b ≤ 70)

/-- Is the byte an ASCII decimal digit. -/
def isDigitB (b : Nat) : Bool := 48 ≤ b ∧ b ≤ 57

/-- Is the byte ASCII whitespace (`u8::is_ascii_whitespace`): space, tab, LF, FF, CR. -/
def isAsciiWhitespaceB (b : Nat) : Bool := b = 32 ∨ b = 9 ∨ b = 10 ∨ b = 12 ∨ b = 13

/-- Decimal digit bytes of `n`, most significant first, accumulator form
(the behaviour of the `itoa` crate used by `Time::write_to`). -/
def decimalBytesAux : Nat → List Nat → List Nat
  | 0, acc => acc
  | n + 1, acc => decimalBytesAux ((n + 1) / 10) ((48 + (n + 1) % 10) :: acc)
decreasing_by exact Nat.div_lt_self (Nat.succ_pos n) (by omega)

/-- Decimal ASCII representation of `n` (what `itoa::write` emits). -/
def decimalBytes (n : Nat) : List Nat :=
  if n = 0 then [48] else decimalBytesAux n []

end Gitoxide

namespace Gitoxide

/-! ## `git-features/src/parallel/mod.rs`: chunk size and thread limit heuristic -/

/-- Resolution of the available thread count from `available_threads`,
`thread_limit` and the system core count `numCpus` (`num_cpus::get`),
as done in the first two statements of `optimize_chunk_size_and_thread_limit`. -/
def resolveAvailableThreads (threadLimit availableThreads : Option Nat) (numCpus : Nat) : Nat :=
  let available := availableThreads.getD numCpus
  match threadLimit with
  | some l => if l = 0 then available else l
  | none => available

/-- `optimize_chunk_size_and_thread_limit` (the `parallel` feature variant).
`numCpus` stands for the result of `num_cpus::get()`. -/
def optimize_chunk_size_and_thread_limit (desiredChunkSize : Nat)
    (numItems threadLimit availableThreads : Option Nat) (numCpus : Nat) :
    Nat × Option Nat × Nat :=
  let availableThreads := resolveAvailableThreads threadLimit availableThreads numCpus
  let lower := 50
  let upper := 1000
  match numItems with
  | some items =>
      let desiredChunksPerThreadAtLeast := 2
      let chunkSize := min (max (items / (availableThreads * desiredChunksPerThreadAtLeast)) 1) upper
      let numChunks := items / chunkSize
      let threadLimit :=
        if numChunks ≤ availableThreads then max (numChunks / desiredChunksPerThreadAtLeast) 1
        else availableThreads
      (chunkSize, some threadLimit, threadLimit)
  | none =>
      let chunkSize :=
        if availableThreads = 1 then desiredChunkSize
        else if desiredChunkSize < lower then lower
        else min desiredChunkSize upper
      (chunkSize, some availableThreads, availableThreads)

end Gitoxide

namespace Gitoxide

/-! ## `git-packetline`: data model (`borrowed.rs`, `lib.rs`) -/

def U16_HEX_BYTES : Nat := 4

def MAX_DATA_LEN : Nat := 65516

/-- `Borrowed<'a>`: a packet line referring to its payload. -/
inductive PacketLineB where
  | data (d : List Nat)
  | flush
  | delimiter
  | responseEnd
deriving DecidableEq, Repr

/-- `Borrowed::as_slice`. -/
def PacketLineB.as_slice : PacketLineB → Option (List Nat)
  | .data d => some d
  | .flush => none
  | .delimiter => none
  | .responseEnd => none

/-- `Band<'a>`: a band in a side-band channel. -/
inductive BandB where
  | data (d : List Nat)
  | progress (d : List Nat)
  | error (d : List Nat)
deriving DecidableEq, Repr

/-- `DecodeBandError` of `borrowed.rs`. -/
inductive DecodeBandError where
  | invalidSideBand (band : Nat)
  | nonDataLine
deriving DecidableEq, Repr

/-- `Borrowed::decode_band`. The outer `Option` models Rust panics: `none` is the
index-out-of-bounds panic of `d[0]` when the data payload is empty. -/
def decode_band (p : PacketLineB) : Option (Except DecodeBandError BandB) :=
  match p.as_slice with
  | none => some (.error .nonDataLine)
  | some d =>
    match d with
    | [] => none
    | b :: rest =>
      if b = 1 then some (.ok (.data rest))
      else if b = 2 then some (.ok (.progress rest))
      else if b = 3 then some (.ok (.error rest))
      else some (.error (.invalidSideBand b))

/-- `impl From<&[u8]> for Text`: truncate one trailing newline. `none` models the
panic of the index `d[d.len() - 1]` on an empty slice. -/
def textFromBytes (d : List Nat) : Option (List Nat) :=
  match d.getLast? with
  | none => none
  | some b => some (if b = 10 then d.dropLast else d)

/-- `Borrowed::to_text`. The outer `Option` models a panic; the inner `Option` is the
source's return value (`None` for non-data lines). -/
def to_text (p : PacketLineB) : Option (Option (List Nat)) :=
  match p.as_slice with
  | none => some none
  | some d => (textFromBytes d).map some

/-! ## `git-packetline`: encoding and the `Writer` (`write.rs`) -/

/-- The error enum of the encode module. -/
inductive EncodeError where
  | dataIsEmpty
  | dataLengthLimitExceeded (n : Nat)
deriving DecidableEq, Repr

/-- Four lowercase hex digit bytes of a 16-bit length value. -/
def u16_to_hex (n : Nat) : List Nat :=
  [hexDigit (n / 4096 % 16), hexDigit (n / 256 % 16), hexDigit (n / 16 % 16), hexDigit (n % 16)]

/-- Modelled from the spec: `git-packetline/src/encode.rs` is not among the provided
sources. Per the spec a data frame is `LLLL<data>` where `LLLL` is four lowercase hex
digits of the total frame length including the 4-byte header, the empty data frame
`0004` is forbidden, and one frame carries at most `MAX_DATA_LEN` data bytes. -/
def data_to_write (d : List Nat) : Except EncodeError (List Nat) :=
  if d.length > MAX_DATA_LEN then .error (.dataLengthLimitExceeded d.length)
  else if d = [] then .error .dataIsEmpty
  else .ok (u16_to_hex (d.length + 4) ++ d)

/-- Modelled from the spec: text frames additionally gain a trailing newline when the
payload does not already end in one. -/
def text_to_write (d : List Nat) : Except EncodeError (List Nat) :=
  let tail := if d.getLast? = some 10 then ([] : List Nat) else [10]
  if d.length + tail.length > MAX_DATA_LEN then
    .error (.dataLengthLimitExceeded (d.length + tail.length))
  else if d = [] then .error .dataIsEmpty
  else .ok (u16_to_hex (d.length + tail.length + 4) ++ d ++ tail)

/-- The errors observable from `Writer::write`: the explicit empty-input error, and
the `unreachable!` panic guarding encode errors that cannot be I/O errors. -/
inductive WriteError where
  | emptyInput
  | unreachablePanic
deriving DecidableEq, Repr

/-- The loop of `Writer::write`: split off at most `MAX_DATA_LEN` bytes, encode them
as one frame into the sink, and account for the returned byte count, which excludes
the header (and the text-mode newline). -/
def writerWriteLoop (binary : Bool) (buf : List Nat) (inner : List Nat) (written : Nat) :
    List Nat × Except WriteError Nat :=
  if h : buf = [] then (inner, .ok written)
  else
    let data := buf.take MAX_DATA_LEN
    let rest := buf.drop MAX_DATA_LEN
    match (if binary then data_to_write data else text_to_write data) with
    | .error _ => (inner, .error .unreachablePanic)
    | .ok frame =>
        writerWriteLoop binary rest (inner ++ frame)
          (written + (frame.length - (U16_HEX_BYTES + if binary then 0 else 1)))
termination_by buf.length
decreasing_by
  simp only [List.length_drop, MAX_DATA_LEN]
  have : buf.length ≠ 0 := fun hl => h (List.eq_nil_of_length_eq_zero hl)
  omega

/-- `Writer::write` of `git-packetline/src/write.rs`. `inner` is the byte sink of the
underlying writer; the result carries the extended sink together with the returned
byte count or the error. -/
def writerWrite (binary : Bool) (buf : List Nat) (inner : List Nat) :
    List Nat × Except WriteError Nat :=
  if buf = [] then (inner, .error .emptyInput)
  else writerWriteLoop binary buf inner 0

/-- Parse four hex digit bytes at the head of the input as a 16-bit value. -/
def parseHex4 (input : List Nat) : Option Nat :=
  match input with
  | a :: b :: c :: d :: _ =>
    match hexVal a, hexVal b, hexVal c, hexVal d with
    | some va, some vb, some vc, some vd => some (va * 4096 + vb * 256 + vc * 16 + vd)
    | _, _, _, _ => none
  | _ => none

/-- Modelled from the spec: the packet-line reader (`git-packetline/src/read.rs` /
`decode.rs` are not among the provided sources). Successive reads of data frames:
each frame is a 4-hex-digit total length (data frames have lengths 5 to 65520)
followed by that many data bytes; the data of all frames is collected in order. -/
def readDataFrames (input : List Nat) : Option (List (List Nat)) :=
  if h : input = [] then some []
  else
    (parseHex4 input).bind fun n =>
      if h5 : 5 ≤ n ∧ n ≤ 65520 then
        if n - 4 ≤ (input.drop 4).length then
          (readDataFrames (input.drop n)).map ((input.drop 4).take (n - 4) :: ·)
        else none
      else none
termination_by input.length
decreasing_by
  simp only [List.length_drop]
  have : input.length ≠ 0 := fun hl => h (List.eq_nil_of_length_eq_zero hl)
  omega

/-- The frame emitted for one chunk of payload in binary mode. -/
def frameOf (c : List Nat) : List Nat := u16_to_hex (c.length + 4) ++ c

/-- The chunks into which `Writer::write` splits its payload. -/
def chunksOf (buf : List Nat) : List (List Nat) :=
  if h : buf = [] then []
  else buf.take MAX_DATA_LEN :: chunksOf (buf.drop MAX_DATA_LEN)
termination_by buf.length
decreasing_by
  simp only [List.length_drop, MAX_DATA_LEN]
  have : buf.length ≠ 0 := fun hl => h (List.eq_nil_of_length_eq_zero hl)
  omega

end Gitoxide

namespace Gitoxide

/-! ## `git-object/src/types.rs`: `Sign`, `Time` and `Time::write_to` -/

/-- `Sign`: the explicit sign flag of a time offset. -/
inductive Sign where
  | plus
  | minus
deriving DecidableEq, Repr

/-- `Time`: seconds since epoch, offset in seconds, explicit sign flag. -/
structure Time where
  time : Nat
  offset : Int
  sign : Sign
deriving DecidableEq, Repr

/-- The ASCII byte written for a `Sign`. -/
def signByte : Sign → Nat
  | .plus => 43
  | .minus => 45

/-- `Time::write_to`: decimal seconds, a space, the sign byte taken from the explicit
flag, then zero-padded hours and minutes of the absolute offset. `none` models the
`assert!(hours < 25)` panic. -/
def Time.write_to (t : Time) : Option (List Nat) :=
  let offset := t.offset.natAbs
  let hours := offset / 3600
  if 25 ≤ hours then none
  else
    let minutes := (offset - hours * 3600) / 60
    some (decimalBytes t.time ++ [32] ++ [signByte t.sign] ++
      (if hours < 10 then [48] else []) ++ decimalBytes hours ++
      (if minutes < 10 then [48] else []) ++ decimalBytes minutes)

/-- The spec-side shape of a zero-padded two-digit decimal field. -/
def twoDigitDec (n : Nat) : List Nat := [48 + n / 10, 48 + n % 10]

/-- Modelled from the spec: the time parser (the `git-actor` signature decoding this
repository uses is not among the provided sources). Parses
`<decimal seconds> <+|-><HH><MM>` with the offset reconstructed as
`±(HH*3600 + MM*60)` and the sign taken from the sign byte (spec sections 4.1, 6
and 8). -/
def parseTzFields (ts : List Nat) (sp s h1 h2 m1 m2 : Nat) : Option Time :=
  if sp = 32 ∧ ts ≠ [] ∧ ts.all isDigitB ∧ (s = 43 ∨ s = 45) ∧
      isDigitB h1 ∧ isDigitB h2 ∧ isDigitB m1 ∧ isDigitB m2 then
    let t := ts.foldl (fun acc d => acc * 10 + (d - 48)) 0
    let hh := (h1 - 48) * 10 + (h2 - 48)
    let mm := (m1 - 48) * 10 + (m2 - 48)
    let mag : Int := (hh * 3600 + mm * 60 : Nat)
    some { time := t, offset := if s = 45 then -mag else mag,
           sign := if s = 45 then .minus else .plus }
  else none

def parseTz (ts rest : List Nat) : Option Time :=
  match rest with
  | sp :: s :: h1 :: h2 :: m1 :: m2 :: [] => parseTzFields ts sp s h1 h2 m1 m2
  | _ => none

def parseTimeBytes (input : List Nat) : Option Time :=
  let ts := input.takeWhile (· ≠ 32)
  parseTz ts (input.drop ts.length)

end Gitoxide

namespace Gitoxide

/-! ## `git-ref/src/store/file/log/line.rs`: reflog line decoding -/

/-- `git_actor::immutable::Signature`, restricted to the fields the reflog needs. -/
structure SignatureB where
  name : List Nat
  email : List Nat
  time : Time
deriving DecidableEq, Repr

/-- `Line<'a>`: one parsed reflog line. -/
structure LineB where
  previous_oid : List Nat
  new_oid : List Nat
  signature : SignatureB
  message : List Nat
deriving DecidableEq, Repr

/-- Modelled from the spec: `git-ref`'s `parse::hex_hash` is not among the provided
sources; per the on-disk reference format it takes exactly 40 ASCII hex digits. -/
def hexHash40 (input : List Nat) : Option (List Nat × List Nat) :=
  if (input.take 40).length = 40 ∧ (input.take 40).all isHexDigitB then
    some (input.take 40, input.drop 40)
  else none

/-- `nom::bytes::complete::tag` for a single byte. -/
def expectByte (b : Nat) : List Nat → Option (List Nat)
  | [] => none
  | x :: rest => if x = b then some rest else none

/-- `nom`-style `terminated(take_until(<2-byte pattern>), take(2))`: the bytes before
the first occurrence of the two-byte pattern, and the input after the pattern. -/
def takeUntil2 (a b : Nat) : List Nat → Option (List Nat × List Nat)
  | [] => none
  | [_] => none
  | x :: y :: rest =>
    if x = a ∧ y = b then some ([], rest)
    else (takeUntil2 a b (y :: rest)).map (fun p => (x :: p.1, p.2))

/-- `nom`-style `terminated(take_until(<byte>), take(1))`. -/
def takeUntilByte (b : Nat) : List Nat → Option (List Nat × List Nat)
  | [] => none
  | x :: rest =>
    if x = b then some ([], rest)
    else (takeUntilByte b rest).map (fun p => (x :: p.1, p.2))

/-- Value of a list of decimal digit bytes. -/
def decToNat (ts : List Nat) : Nat := ts.foldl (fun acc d => acc * 10 + (d - 48)) 0

/-- Modelled from the spec: the timezone tail `<+|-><HH><MM>` of a signature, as in
spec sections 6 and 8 (scenario 4: `+0800` gives `offset=28800, sign=Plus`). -/
def parseTzSig : List Nat → Option ((Int × Sign) × List Nat)
  | s :: d1 :: d2 :: d3 :: d4 :: r4 =>
    if (s = 43 ∨ s = 45) ∧ isDigitB d1 ∧ isDigitB d2 ∧ isDigitB d3 ∧ isDigitB d4 then
      let hh := (d1 - 48) * 10 + (d2 - 48)
      let mm := (d3 - 48) * 10 + (d4 - 48)
      let mag : Int := (hh * 3600 + mm * 60 : Nat)
      some ((if s = 45 then -mag else mag, if s = 45 then Sign.minus else Sign.plus), r4)
    else none
  | _ => none

/-- Modelled from the spec: `git_actor::immutable::signature::decode` is not among
the provided sources. Per the spec's reflog entry format it consumes exactly
`<name> <<email>> <epoch> <tz>`: name up to `" <"`, email up to `"> "`, decimal
seconds up to a space, then the timezone; nothing after the timezone is consumed. -/
def signatureDecode (input : List Nat) : Option (SignatureB × List Nat) :=
  (takeUntil2 32 60 input).bind fun pn =>
  (takeUntil2 62 32 pn.2).bind fun pe =>
  (takeUntilByte 32 pe.2).bind fun pt =>
  if pt.1 ≠ [] ∧ pt.1.all isDigitB then
    (parseTzSig pt.2).map fun pz =>
      (⟨pn.1, pe.1, ⟨decToNat pt.1, pz.1.1, pz.1.2⟩⟩, pz.2)
  else none

/-- The tail of `decode::message`: after `take_while(|c| c != b'\n')`, an optional
newline is consumed (`opt(tag(b"\n"))`). -/
def afterMsg (o : List Nat) : List Nat → (List Nat × List Nat)
  | [] => (o, [])
  | b :: rest => if b = 10 then (o, rest) else (o, b :: rest)

/-- `decode::message` of `line.rs`: empty input parses as an empty message, otherwise
everything up to an optional newline. Returns `(message, remaining)`; it never fails. -/
def message (i : List Nat) : List Nat × List Nat :=
  if i = [] then ([], [])
  else
    let o := i.takeWhile (· ≠ 10)
    afterMsg o (i.drop o.length)

/-- The whitespace gate of `decode::one`: when no tab separated signature and message,
a non-empty message must start with ASCII whitespace. -/
def msgSepOk : List Nat → Bool
  | [] => true
  | c :: _ => isAsciiWhitespaceB c

/-- `decode::one` of `line.rs`: two hex hashes, a signature, an optional tab, the
message; without the tab a non-empty message must start with whitespace. Returns the
parsed line and the remaining input. -/
def reflogParseOne (bytes : List Nat) : Option (LineB × List Nat) :=
  (hexHash40 bytes).bind fun p1 =>
  (expectByte 32 p1.2).bind fun r1 =>
  (hexHash40 r1).bind fun p2 =>
  (expectByte 32 p2.2).bind fun r2 =>
  (signatureDecode r2).bind fun ps =>
  if ps.2.head? = some 9 then
    some (⟨p1.1, p2.1, ps.1, (message ps.2.tail).1⟩, (message ps.2.tail).2)
  else
    if msgSepOk (message ps.2).1 then
      some (⟨p1.1, p2.1, ps.1, (message ps.2).1⟩, (message ps.2).2)
    else none

end Gitoxide

namespace Gitoxide

/-! ## `git-transport/src/client/capabilities.rs`: capability detection -/

/-- `Protocol` of `git-transport`. -/
inductive Protocol where
  | v1
  | v2
deriving DecidableEq, Repr

/-- The error enum of `capabilities.rs` (I/O errors cannot arise in this model). -/
inductive CapError where
  | missingDelimitingNullByte
  | noCapabilities
  | missingVersionLine
  | malformattedVersionLine
  | unsupportedVersion
deriving DecidableEq, Repr

/-- The slice of `client::Error` reachable from `recv::v1_or_v2_as_detected`. -/
inductive ClientError where
  | expectedLineText
  | cap (e : CapError)
deriving DecidableEq, Repr

/-- `bstr`'s `find_byte`: index of the first occurrence of a byte. -/
def findByteIdx (b : Nat) : List Nat → Option Nat
  | [] => none
  | x :: rest => if x = b then some 0 else (findByteIdx b rest).map (· + 1)

/-- The tail of `Capabilities::from_bytes` after `find_byte(0)`. -/
def fromBytesAfterIdx (bytes : List Nat) : Option Nat → Except CapError (List Nat × Nat)
  | none => .error .missingDelimitingNullByte
  | some pos =>
    if pos + 1 = bytes.length then .error .noCapabilities
    else .ok (bytes.drop (pos + 1), pos)

/-- `Capabilities::from_bytes`: the capability bytes behind the first NUL, plus the
delimiter position. -/
def capabilitiesFromBytes (bytes : List Nat) : Except CapError (List Nat × Nat) :=
  fromBytesAfterIdx bytes (findByteIdx 0 bytes)

/-- The tail of `Capabilities::from_lines` after `version_line.find(' ')`:
`split_at` yields `(name, value)`; `name` must be `version` and `value` exactly
`" 2"`; the remaining lines are joined with newlines. -/
def fromLinesAfterIdx (v : List Nat) (rest : List (List Nat)) :
    Option Nat → Except CapError (List Nat)
  | none => .error .malformattedVersionLine
  | some i =>
    if v.take i ≠ strB "version" then .error .malformattedVersionLine
    else if v.drop i ≠ strB " 2" then .error .unsupportedVersion
    else .ok (List.intercalate [10] rest)

/-- `Capabilities::from_lines`, over the already-split lines of the reader (the
source's `lines()` iterator; its lines can never contain a newline, so the
`assert!` in `inspect` cannot fire). -/
def capabilitiesFromLines : List (List Nat) → Except CapError (List Nat)
  | [] => .error .missingVersionLine
  | v :: rest => fromLinesAfterIdx v rest (findByteIdx 32 v)

/-- The outcome of `recv::v1_or_v2_as_detected`: capability bytes, whether a ref
list follows (`refs.is_some()`), and the actual protocol. -/
structure RecvOutcome where
  capabilities : List Nat
  refsPresent : Bool
  protocol : Protocol
deriving DecidableEq, Repr

/-- `starts_with_str`: the first bytes of `fl` equal `p`. -/
def startsWithL (p fl : List Nat) : Bool := fl.take p.length = p

/-- `ends_with_str`: the last bytes of `fl` equal `p`. -/
def endsWithL (p fl : List Nat) : Bool := fl.drop (fl.length - p.length) = p

/-- The version detection on the peeked first line: a `version `-prefixed line that
ends in `" 1"` selects V1, any other `version `-prefixed line selects V2, and
everything else selects V1. -/
def detectedProtocol (fl : List Nat) : Protocol :=
  if startsWithL (strB "version ") fl then
    (if endsWithL (strB " 1") fl then .v1 else .v2)
  else .v1

/-- The V1 arm of the detection: capabilities behind the NUL of the first ref line;
the ref list is present. -/
def v1Outcome : Except CapError (List Nat × Nat) → Except ClientError RecvOutcome
  | .error e => .error (.cap e)
  | .ok cp => .ok ⟨cp.1, true, .v1⟩

/-- The V2 arm of the detection: capabilities from the version line and the
following lines; no ref list. -/
def v2Outcome : Except CapError (List Nat) → Except ClientError RecvOutcome
  | .error e => .error (.cap e)
  | .ok caps => .ok ⟨caps, false, .v2⟩

/-- The body of `v1_or_v2_as_detected` on the text of the peeked line. In the V2
arm, `rd.as_read()` re-reads the (still unconsumed) peeked line first, so
`from_lines` sees the first line followed by the later lines until flush. -/
def detectOnText (laterLines : List (List Nat)) : Option (List Nat) → Except ClientError RecvOutcome
  | none => .error .expectedLineText
  | some fl =>
    if detectedProtocol fl = .v1 then v1Outcome (capabilitiesFromBytes fl)
    else v2Outcome (capabilitiesFromLines (fl :: laterLines))

/-- `recv::v1_or_v2_as_detected` over the peeked first packet line and the later
lines; the outer `Option` propagates the panic of `to_text` on an empty payload. -/
def v1_or_v2_as_detected (firstLine : PacketLineB) (laterLines : List (List Nat)) :
    Option (Except ClientError RecvOutcome) :=
  (to_text firstLine).map (detectOnText laterLines)

/-- The detection as run from `Connection::handshake` (`git.rs`): the desired
protocol version is not consulted at all, which is what makes the V2-to-V1
downgrade transparent. -/
def handshakeDetect (desired : Protocol) (firstLine : PacketLineB)
    (laterLines : List (List Nat)) : Option (Except ClientError RecvOutcome) :=
  v1_or_v2_as_detected firstLine laterLines

end Gitoxide

namespace Gitoxide

/-! ## `git-ref/src/store/file/transaction.rs`: the reference transaction engine -/

/-- `mutable::Target`. Modelled from the spec (`git-ref`'s `mutable.rs` is not among
the provided sources): a reference targets either a peeled 20-byte object id or a
symbolic full name. -/
inductive Target where
  | peeled (oid : List Nat)
  | symbolic (name : List Nat)
deriving DecidableEq, Repr

/-- The all-zero 20-byte digest, the "null" sentinel of the spec. -/
def nullOid : List Nat := List.replicate 20 0

/-- `Target::is_null`. Modelled from the spec: only the all-zero peeled id is null. -/
def Target.is_null : Target → Bool
  | .peeled oid => oid = nullOid
  | .symbolic _ => false

/-- `transaction::RefLog`: what a deletion removes. -/
inductive RefLogMode where
  | andReference
  | only
deriving DecidableEq, Repr

/-- `transaction::Change` (the `log` field of updates is not consulted by the
embedded code paths and is omitted). -/
inductive Change where
  | update (previous : Option Target) (new : Target)
  | delete (previous : Option Target) (mode : RefLogMode)
deriving DecidableEq, Repr

/-- `transaction::RefEdit`. -/
structure RefEdit where
  name : List Nat
  change : Change
  deref : Bool
deriving DecidableEq, Repr

/-- The private `Index` of `transaction.rs`. -/
inductive Index where
  | parent (i : Nat)
  | child (i : Nat)
deriving DecidableEq, Repr

/-- A per-edit lock: deletions hold a `git_lock::Marker`; updates hold a closed lock
file with the staged content (the bytes written in `lock.with_mut`). -/
inductive LockState where
  | marker
  | closedWithContent (content : List Nat)
deriving DecidableEq, Repr

/-- The private `Edit` of `transaction.rs`. -/
structure Edit where
  update : RefEdit
  lock : Option LockState
  index : Option Index
deriving DecidableEq, Repr

/-- The outcome of removing a file: `notFound` is tolerated by the commit code. -/
inductive RemoveResult where
  | removed
  | notFound
  | ioError
deriving DecidableEq, Repr

/-- The filesystem and helper effects the transaction depends on. `readRef` models
`Store::ref_contents` followed by `Reference::try_from_path`; the code maps a decode
failure to `Ok(None)`, so `.ok none` covers both "absent" and "undecodable", while
`.error ()` is an I/O failure. `preProcess` models `RefEditsExt::pre_process`
(`transaction/mod.rs` is not among the provided sources). -/
structure StoreEnv where
  readRef : List Nat → Except Unit (Option Target)
  lockAvailable : List Nat → Bool
  preProcess : List Edit → Except Unit (List Edit)
  commitLock : List Nat → Bool
  removeReflog : List Nat → RemoveResult
  removeRef : List Nat → RemoveResult

/-- The error enum of the transaction, restricted to the reachable variants. -/
inductive TxError where
  | preprocessingFailed
  | lockAcquire
  | io
  | deleteReferenceMustExist (fullName : List Nat)
  | deleteReferenceOutOfDate (fullName : List Nat) (expected actual : Target)
  | deleteReference (fullName : List Nat)
  | deleteReflog (fullName : List Nat)
deriving DecidableEq, Repr

/-- A Rust result that can also panic (`assert!`, `unreachable!`, `todo!`). -/
inductive RRes (α : Type) where
  | ok (a : α)
  | err (e : TxError)
  | panic (msg : String)
deriving DecidableEq, Repr

/-- Sequencing of `RRes` computations (the `?` operator plus panic propagation). -/
def RRes.bind {α β : Type} : RRes α → (α → RRes β) → RRes β
  | .ok a, f => f a
  | .err e, _ => .err e
  | .panic m, _ => .panic m

/-- Hex encoding of a 20-byte id, as `Digest::to_sha1_hex` produces. -/
def sha1HexLower (bytes : List Nat) : List Nat :=
  (bytes.map fun b => [hexDigit (b / 16), hexDigit (b % 16)]).flatten

/-- `Transaction::lock_ref_and_apply_change`. The initial `assert!` panics when a
lock is already present. In the delete arm, the lock is acquired first, then the
read result is consulted and the `previous` expectation enforced; afterwards the
recorded `previous` is replaced by the existing target when there is one. In the
update arm, any `Some(previous)` expectation hits a `todo!` panic; otherwise the new
content is staged into the lock file: the raw id bytes for a peeled target, or
`ref: ` followed by the name for a symbolic one, and the lock is closed. -/
def lock_ref_and_apply_change (env : StoreEnv) (change : Edit) : RRes Edit :=
  if change.lock.isSome then
    .panic "locks can only be acquired once and it is all or nothing"
  else
    let existing_ref := env.readRef change.update.name
    match change.update.change with
    | .delete previous mode =>
        if env.lockAvailable change.update.name = false then .err .lockAcquire
        else
          match existing_ref with
          | .error _ => .err .io
          | .ok existing =>
              match previous, existing with
              | some _, none => .err (.deleteReferenceMustExist change.update.name)
              | some p, some ex =>
                  if ¬ p.is_null ∧ p ≠ ex then
                    .err (.deleteReferenceOutOfDate change.update.name p ex)
                  else
                    .ok { change with
                      update := { change.update with change := .delete (some ex) mode },
                      lock := some .marker }
              | none, some ex =>
                  .ok { change with
                    update := { change.update with change := .delete (some ex) mode },
                    lock := some .marker }
              | none, none =>
                  .ok { change with
                    update := { change.update with change := .delete none mode },
                    lock := some .marker }
    | .update previous new =>
        if env.lockAvailable change.update.name = false then .err .lockAcquire
        else if previous.isSome then
          .panic "todo: check previous value, if object id is not null"
        else
          match existing_ref with
          | .error _ => .err .io
          | .ok existing =>
              let previous2 := match existing with
                | some ex => some ex
                | none => previous
              let content := match new with
                | .peeled oid => oid
                | .symbolic name => strB "ref: " ++ name
              .ok { change with
                update := { change.update with change := .update previous2 new },
                lock := some (.closedWithContent content) }

/-- The transaction state machine: `State::Open` and `State::Prepared`. -/
inductive TxState where
  | opened
  | prepared
deriving DecidableEq, Repr

/-- `Transaction` (the store and lock-fail mode live in `StoreEnv`). -/
structure TransactionM where
  updates : List Edit
  state : TxState
deriving DecidableEq, Repr

/-- The `for change in self.updates` loop of `prepare`: first failure aborts. -/
def lockAll (env : StoreEnv) : List Edit → RRes (List Edit)
  | [] => .ok []
  | e :: rest =>
      match lock_ref_and_apply_change env e with
      | .ok e2 => (lockAll env rest).bind fun rest2 => .ok (e2 :: rest2)
      | .err x => .err x
      | .panic m => .panic m

/-- The `rfind` over `changes[..cursor]` locating the next split leaf: the rightmost
edit below the cursor carrying a `Parent` index, returned as
`(parent index, child position)`. -/
def findLeaf (changes : List Edit) (cursor : Nat) : Option (Nat × Nat) :=
  (List.range cursor).reverse.findSome? fun cidx =>
    match changes.get? cidx with
    | some c =>
        match c.index with
        | some (.parent p) => some (p, cidx)
        | _ => none
    | none => none

/-- The inner `while` of `invert_parent_links`: walk the parent chain, flipping each
`Parent` link into a `Child` link pointing at the previously visited node. The fuel
bounds the walk; exhaustion and the `unreachable!` on a `Child` link are `none`. -/
def chainStep : Nat → List Edit → Nat → Option Nat → Option (List Edit)
  | _, changes, _, none => some changes
  | 0, _, _, some _ => none
  | fuel + 1, changes, nextChild, some pidx =>
      match changes.get? pidx with
      | none => none
      | some parent =>
          match parent.index with
          | some (.child _) => none
          | some (.parent nextParent) =>
              chainStep fuel (changes.set pidx { parent with index := some (.child nextChild) })
                pidx (some nextParent)
          | none => some changes

/-- The outer loop of `invert_parent_links`: repeatedly find the next leaf below the
cursor and invert its chain; the cursor only moves left, so the fuel suffices. -/
def invertLoop : Nat → List Edit → Nat → Option (List Edit)
  | 0, _, _ => none
  | fuel + 1, changes, cursor =>
      match findLeaf changes cursor with
      | none => some changes
      | some pc =>
          match chainStep (changes.length + 1) changes pc.2 (some pc.1) with
          | none => none
          | some changes2 => invertLoop fuel changes2 pc.2

/-- `Transaction::invert_parent_links`. -/
def invert_parent_links (changes : List Edit) : Option (List Edit) :=
  if changes.isEmpty then some changes
  else invertLoop (changes.length + 1) changes changes.length

/-- `Transaction::prepare`: idempotent on a prepared transaction; on an open one it
pre-processes the edits, locks and applies each change in order, inverts the parent
links and moves to `Prepared`. -/
def Transaction.prepare (env : StoreEnv) (tx : TransactionM) : RRes TransactionM :=
  match tx.state with
  | .prepared => .ok tx
  | .opened =>
      match env.preProcess tx.updates with
      | .error _ => .err .preprocessingFailed
      | .ok ups =>
          (lockAll env ups).bind fun ups2 =>
            match invert_parent_links ups2 with
            | none => .panic "unreachable: invert_parent_links cannot terminate"
            | some ups3 => .ok ⟨ups3, .prepared⟩

/-- The first commit pass: updates only. Every edit asserts `!deref`; an update
takes its lock (panicking when absent), hits the `todo!` for peeled targets before
the reflog could be written, and commits the lock for symbolic targets. -/
def commitUpdatePass (env : StoreEnv) : List Edit → RRes (List Edit)
  | [] => .ok []
  | e :: rest =>
      if e.update.deref then .panic "Deref mode is turned into splits and turned off"
      else
        match e.update.change with
        | .update _ new =>
            match e.lock with
            | none => .panic "each ref is locked"
            | some _ =>
                match new with
                | .peeled _ => .panic "todo: commit other reflog write cases"
                | .symbolic _ =>
                    if env.commitLock e.update.name then
                      (commitUpdatePass env rest).bind fun rest2 =>
                        .ok ({ e with lock := none } :: rest2)
                    else .err .io
        | .delete _ _ =>
            (commitUpdatePass env rest).bind fun rest2 => .ok (e :: rest2)

/-- The second commit pass: deletions only. The reflog is removed first (both
modes), then the reference file when the mode is `AndReference`; a missing file is
tolerated, and the lock is dropped. -/
def commitDeletePass (env : StoreEnv) : List Edit → RRes (List Edit)
  | [] => .ok []
  | e :: rest =>
      match e.update.change with
      | .update _ _ => (commitDeletePass env rest).bind fun r2 => .ok (e :: r2)
      | .delete _ mode =>
          match e.lock with
          | none => .panic "each ref is locked, even deletions"
          | some _ =>
              match env.removeReflog e.update.name with
              | .ioError => .err (.deleteReflog e.update.name)
              | _ =>
                  if mode = RefLogMode.andReference then
                    match env.removeRef e.update.name with
                    | .ioError => .err (.deleteReference e.update.name)
                    | _ => (commitDeletePass env rest).bind fun r2 =>
                        .ok ({ e with lock := none } :: r2)
                  else (commitDeletePass env rest).bind fun r2 =>
                      .ok ({ e with lock := none } :: r2)

/-- The `State::Prepared` arm of `Transaction::commit`: both passes, then the edits
are returned. -/
def commitPrepared (env : StoreEnv) (tx : TransactionM) : RRes (List RefEdit) :=
  (commitUpdatePass env tx.updates).bind fun ups =>
    (commitDeletePass env ups).bind fun ups2 =>
      .ok (ups2.map (·.update))

/-- `Transaction::commit`. The source recurses as `self.prepare()?.commit()` in the
`Open` arm; a successful `prepare` always yields the `Prepared` state (proved as
`prepare_ok_state`), so the recursive call is exactly `commitPrepared`, which
grounds the recursion here. -/
def Transaction.commit (env : StoreEnv) (tx : TransactionM) : RRes (List RefEdit) :=
  match tx.state with
  | .opened => (Transaction.prepare env tx).bind (commitPrepared env)
  | .prepared => commitPrepared env tx

/-- A trivial environment for concrete evaluations: no ref exists on disk, every
lock is available, pre-processing is the identity, all file operations succeed. -/
def envTriv : StoreEnv where
  readRef := fun _ => .ok none
  lockAvailable := fun _ => true
  preProcess := fun l => .ok l
  commitLock := fun _ => true
  removeReflog := fun _ => .notFound
  removeRef := fun _ => .notFound

end Gitoxide

namespace Gitoxide

/-! ### Theorems about the chunk-size heuristic (claim C6) -/

/-- C6 counterexample: with `num_items = None`, `desired_chunk_size = 2000`,
`thread_limit = Some(1)` and 8 available cores, the returned chunk size is 2000,
outside the interval `[50, 1000]` the claim asserts for every input. -/
theorem claim_C6_counterexample :
    (optimize_chunk_size_and_thread_limit 2000 none (some 1) (some 8) 8).1 = 2000 ∧
    ¬ (optimize_chunk_size_and_thread_limit 2000 none (some 1) (some 8) 8).1 ≤ 1000 := by
  constructor
  · rfl
  · decide

/-- C6 amended: when the total item count is unknown, the chunk size is clamped to
`[50, 1000]` whenever the resolved available thread count is not 1; in the
single-thread case the desired chunk size is returned unchanged. -/
theorem claim_C6_amended (desired numCpus : Nat) (threadLimit availableThreads : Option Nat) :
    (resolveAvailableThreads threadLimit availableThreads numCpus ≠ 1 →
      50 ≤ (optimize_chunk_size_and_thread_limit desired none threadLimit availableThreads numCpus).1 ∧
      (optimize_chunk_size_and_thread_limit desired none threadLimit availableThreads numCpus).1 ≤ 1000) ∧
    (resolveAvailableThreads threadLimit availableThreads numCpus = 1 →
      (optimize_chunk_size_and_thread_limit desired none threadLimit availableThreads numCpus).1 = desired) := by
  constructor
  · intro h
    have hr : (optimize_chunk_size_and_thread_limit desired none threadLimit availableThreads numCpus).1
        = if desired < 50 then 50 else min desired 1000 := by
      simp [optimize_chunk_size_and_thread_limit, h]
    rw [hr]
    split <;> omega
  · intro h
    simp [optimize_chunk_size_and_thread_limit, h]

/-- Witness for the amended C6 theorem at a concrete input. -/
theorem claim_C6_amended_witness :
    50 ≤ (optimize_chunk_size_and_thread_limit 10 none (some 4) none 8).1 ∧
    (optimize_chunk_size_and_thread_limit 10 none (some 4) none 8).1 ≤ 1000 :=
  (claim_C6_amended 10 8 (some 4) none).1 (by decide)

end Gitoxide

namespace Gitoxide

/-! ### Helper lemmas for the packet-line codec -/

theorem hexVal_hexDigit : ∀ n < 16, hexVal (hexDigit n) = some n := by decide

theorem parseHex4_cons {a b c d : Nat} {t : List Nat} {va vb vc vd : Nat}
    (ha : hexVal a = some va) (hb : hexVal b = some vb)
    (hc : hexVal c = some vc) (hd : hexVal d = some vd) :
    parseHex4 (a :: b :: c :: d :: t) = some (va * 4096 + vb * 256 + vc * 16 + vd) := by
  simp [parseHex4, ha, hb, hc, hd]

theorem parseHex4_u16 {n : Nat} (hn : n < 65536) (t : List Nat) :
    parseHex4 (u16_to_hex n ++ t) = some n := by
  have h16 : ∀ m : Nat, m % 16 < 16 := fun m => Nat.mod_lt _ (by norm_num)
  have he : u16_to_hex n ++ t
      = hexDigit (n / 4096 % 16) :: hexDigit (n / 256 % 16) :: hexDigit (n / 16 % 16) ::
        hexDigit (n % 16) :: t := rfl
  rw [he, parseHex4_cons (hexVal_hexDigit _ (h16 _)) (hexVal_hexDigit _ (h16 _))
    (hexVal_hexDigit _ (h16 _)) (hexVal_hexDigit _ (h16 _))]
  congr 1
  omega

theorem u16_to_hex_length (n : Nat) : (u16_to_hex n).length = 4 := rfl

theorem drop4_u16_append (n : Nat) (t : List Nat) : (u16_to_hex n ++ t).drop 4 = t := by
  simp [u16_to_hex]

theorem drop_len_append {l1 l2 : List Nat} {n : Nat} (h : l1.length = n) :
    (l1 ++ l2).drop n = l2 := by
  subst h
  exact List.drop_left _ _

theorem take_max_ne_nil {buf : List Nat} (h : buf ≠ []) : buf.take MAX_DATA_LEN ≠ [] := by
  intro hnil
  have hlen := congrArg List.length hnil
  simp only [List.length_take, List.length_nil] at hlen
  have hpos : 0 < buf.length := List.length_pos.mpr h
  rcases Nat.min_eq_zero_iff.mp hlen with h0 | h0
  · exact absurd h0 (by decide)
  · omega

theorem chunksOf_flatten (buf : List Nat) : (chunksOf buf).flatten = buf := by
  induction buf using chunksOf.induct with
  | case1 => rw [chunksOf]; simp
  | case2 buf h ih =>
      rw [chunksOf]
      simp only [dif_neg h, List.flatten_cons]
      rw [ih, List.take_append_drop]

theorem chunksOf_mem (buf : List Nat) :
    ∀ c ∈ chunksOf buf, c ≠ [] ∧ c.length ≤ MAX_DATA_LEN := by
  induction buf using chunksOf.induct with
  | case1 => rw [chunksOf]; simp
  | case2 buf h ih =>
      rw [chunksOf]
      simp only [dif_neg h, List.mem_cons]
      rintro c (rfl | hc)
      · refine ⟨take_max_ne_nil h, ?_⟩
        rw [List.length_take]
        omega
      · exact ih c hc

theorem writerWriteLoop_binary (buf : List Nat) : ∀ inner w0,
    writerWriteLoop true buf inner w0 =
      (inner ++ ((chunksOf buf).map frameOf).flatten, .ok (w0 + buf.length)) := by
  induction buf using chunksOf.induct with
  | case1 =>
      intro inner w0
      rw [writerWriteLoop, chunksOf]
      simp
  | case2 buf h ih =>
      intro inner w0
      have hlen : (buf.take MAX_DATA_LEN).length ≤ MAX_DATA_LEN := by
        rw [List.length_take]; omega
      have hne : buf.take MAX_DATA_LEN ≠ [] := take_max_ne_nil h
      have henc : data_to_write (buf.take MAX_DATA_LEN)
          = .ok (frameOf (buf.take MAX_DATA_LEN)) := by
        simp only [data_to_write, frameOf]
        rw [if_neg (by omega), if_neg hne]
      rw [writerWriteLoop]
      simp only [dif_neg h, if_true, eq_self_iff_true, henc]
      rw [ih]
      have hfl : (frameOf (buf.take MAX_DATA_LEN)).length = 4 + (buf.take MAX_DATA_LEN).length := by
        simp [frameOf, u16_to_hex]
        omega
      have hch : chunksOf buf = buf.take MAX_DATA_LEN :: chunksOf (buf.drop MAX_DATA_LEN) := by
        rw [chunksOf]
        exact dif_neg h
      rw [hch]
      simp only [List.map_cons, List.flatten_cons, Prod.mk.injEq]
      constructor
      · simp [List.append_assoc]
      · congr 1
        rw [hfl]
        simp only [U16_HEX_BYTES, List.length_take, List.length_drop]
        omega

theorem readDataFrames_of_chunks : ∀ (chunks : List (List Nat)),
    (∀ c ∈ chunks, c ≠ [] ∧ c.length ≤ MAX_DATA_LEN) →
    readDataFrames ((chunks.map frameOf).flatten) = some chunks := by
  intro chunks
  induction chunks with
  | nil =>
      intro _
      rw [readDataFrames]
      simp
  | cons c cs ih =>
      intro h
      obtain ⟨hc, hcl⟩ := h c (by simp)
      have hrest := ih (fun x hx => h x (by simp [hx]))
      have hclen : 1 ≤ c.length := List.length_pos.mpr hc
      have hmaxeq : MAX_DATA_LEN = 65516 := rfl
      have hin : ((c :: cs).map frameOf).flatten
          = u16_to_hex (c.length + 4) ++ (c ++ ((cs.map frameOf)).flatten) := by
        simp [frameOf, List.append_assoc]
      have hne : u16_to_hex (c.length + 4) ++ (c ++ (cs.map frameOf).flatten) ≠ [] := by
        simp [u16_to_hex]
      have htk : (c ++ (cs.map frameOf).flatten).take (c.length + 4 - 4) = c := by
        have h4 : c.length + 4 - 4 = c.length := by omega
        rw [h4, List.take_left]
      have hdp : (u16_to_hex (c.length + 4) ++ (c ++ (cs.map frameOf).flatten)).drop (c.length + 4)
          = (cs.map frameOf).flatten := by
        have hre : u16_to_hex (c.length + 4) ++ (c ++ (cs.map frameOf).flatten)
            = (u16_to_hex (c.length + 4) ++ c) ++ (cs.map frameOf).flatten := by
          simp [List.append_assoc]
        have hl : (u16_to_hex (c.length + 4) ++ c).length = c.length + 4 := by
          simp [u16_to_hex_length]
          omega
        rw [hre, drop_len_append hl]
      rw [hin, readDataFrames, dif_neg hne, parseHex4_u16 (by omega), Option.some_bind]
      rw [dif_pos (⟨by omega, by omega⟩ : 5 ≤ c.length + 4 ∧ c.length + 4 ≤ 65520)]
      rw [drop4_u16_append]
      rw [if_pos (by rw [List.length_append]; omega)]
      rw [htk, hdp, hrest]
      rfl

end Gitoxide

namespace Gitoxide

/-! ### Claim C10: `decode_band` and `to_text` on empty and non-empty data lines -/

/-- C10: `Borrowed::decode_band` and the text conversion behind `Borrowed::to_text`
index into the payload unconditionally: both panic (modelled as `none`) on a data
line with empty payload, and both return without panicking on every data line with
non-empty payload. -/
theorem claim_C10 :
    (decode_band (.data []) = none ∧ to_text (.data []) = none) ∧
    (∀ d : List Nat, d ≠ [] → decode_band (.data d) ≠ none ∧ to_text (.data d) ≠ none) := by
  refine ⟨⟨rfl, rfl⟩, ?_⟩
  intro d hd
  constructor
  · match d with
    | b :: rest =>
      by_cases h1 : b = 1 <;> by_cases h2 : b = 2 <;> by_cases h3 : b = 3 <;>
        simp [decode_band, PacketLineB.as_slice, h1, h2, h3]
  · have hs : d.getLast?.isSome := by
      rw [List.getLast?_isSome]
      exact hd
    obtain ⟨b, hb⟩ := Option.isSome_iff_exists.mp hs
    simp [to_text, PacketLineB.as_slice, textFromBytes, hb]

/-- Witness for C10 at the concrete non-empty payload `[1, 104]`. -/
theorem claim_C10_witness :
    ([1, 104] ≠ ([] : List Nat)) ∧
    decode_band (.data [1, 104]) ≠ none ∧ to_text (.data [1, 104]) ≠ none :=
  ⟨by decide, claim_C10.2 [1, 104] (by decide)⟩

/-! ### Claim C4: writing an empty buffer fails without output -/

/-- C4: `Writer::write` with an empty input buffer fails with an error and leaves the
underlying writer untouched, in both binary and text mode. -/
theorem claim_C4 (binary : Bool) (inner : List Nat) :
    writerWrite binary [] inner = (inner, .error .emptyInput) := by
  simp [writerWrite]

/-! ### Claim C5: non-empty payloads split into frames and round-trip -/

/-- C5: every non-empty payload written through the (binary-mode) `Writer` is emitted
as successive data frames of at most `MAX_DATA_LEN` data bytes each, the write
succeeds, and reading the emitted bytes back frame by frame recovers chunks whose
concatenation is the original payload. -/
theorem claim_C5 (buf : List Nat) (h : buf ≠ []) :
    ∃ frames,
      readDataFrames (writerWrite true buf []).1 = some frames ∧
      frames.flatten = buf ∧
      (∀ f ∈ frames, f ≠ [] ∧ f.length ≤ MAX_DATA_LEN) ∧
      ∃ w, (writerWrite true buf []).2 = Except.ok w := by
  refine ⟨chunksOf buf, ?_, chunksOf_flatten buf, chunksOf_mem buf, ?_⟩
  · rw [writerWrite, if_neg h, writerWriteLoop_binary]
    simp only [List.nil_append]
    exact readDataFrames_of_chunks _ (chunksOf_mem buf)
  · rw [writerWrite, if_neg h, writerWriteLoop_binary]
    exact ⟨buf.length, by simp⟩

/-- Witness for C5 at the concrete payload `"hi"` (`[104, 105]`). -/
theorem claim_C5_witness :
    ∃ frames,
      readDataFrames (writerWrite true [104, 105] []).1 = some frames ∧
      frames.flatten = [104, 105] ∧
      (∀ f ∈ frames, f ≠ [] ∧ f.length ≤ MAX_DATA_LEN) ∧
      ∃ w, (writerWrite true [104, 105] []).2 = Except.ok w :=
  claim_C5 [104, 105] (by decide)

end Gitoxide

namespace Gitoxide

/-! ### Helper lemmas for decimal formatting (claim C8) -/

theorem decimalBytesAux_append (n : Nat) :
    ∀ acc, decimalBytesAux n acc = decimalBytesAux n [] ++ acc := by
  induction n using Nat.strong_induction_on with
  | _ n ih =>
    intro acc
    match n with
    | 0 => simp [decimalBytesAux]
    | m + 1 =>
        rw [decimalBytesAux, decimalBytesAux]
        rw [ih ((m + 1) / 10) (Nat.div_lt_self (Nat.succ_pos m) (by omega)) ((48 + (m + 1) % 10) :: acc)]
        rw [ih ((m + 1) / 10) (Nat.div_lt_self (Nat.succ_pos m) (by omega)) [48 + (m + 1) % 10]]
        simp

theorem decimalBytesAux_small {n : Nat} (h1 : 0 < n) (h2 : n < 10) :
    decimalBytesAux n [] = [48 + n] := by
  match n, h1 with
  | m + 1, _ =>
    rw [decimalBytesAux]
    rw [Nat.div_eq_of_lt h2, Nat.mod_eq_of_lt h2]
    rw [decimalBytesAux]

theorem decimalBytesAux_tens {n : Nat} (h1 : 10 ≤ n) (h2 : n < 100) :
    decimalBytesAux n [] = [48 + n / 10, 48 + n % 10] := by
  match n, (by omega : 0 < n) with
  | m + 1, _ =>
    rw [decimalBytesAux]
    rw [decimalBytesAux_append, decimalBytesAux_small (by omega) (by omega)]
    rfl

theorem decimal_two_digit {n : Nat} (h : n < 100) :
    (if n < 10 then [48] else []) ++ decimalBytes n = twoDigitDec n := by
  by_cases h10 : n < 10
  · rw [if_pos h10]
    by_cases h0 : n = 0
    · subst h0
      rfl
    · rw [decimalBytes, if_neg h0, decimalBytesAux_small (by omega) h10]
      simp [twoDigitDec, Nat.div_eq_of_lt h10, Nat.mod_eq_of_lt h10]
  · rw [if_neg h10]
    rw [decimalBytes, if_neg (by omega), decimalBytesAux_tens (by omega) h]
    simp [twoDigitDec]

theorem decimalBytesAux_digits (n : Nat) :
    ∀ d ∈ decimalBytesAux n [], 48 ≤ d ∧ d ≤ 57 := by
  induction n using Nat.strong_induction_on with
  | _ n ih =>
    match n with
    | 0 => intro d hd; simp [decimalBytesAux] at hd
    | m + 1 =>
        intro d hd
        rw [decimalBytesAux, decimalBytesAux_append] at hd
        rcases List.mem_append.mp hd with hmem | hmem
        · exact ih ((m + 1) / 10) (Nat.div_lt_self (Nat.succ_pos m) (by omega)) d hmem
        · have hde : d = 48 + (m + 1) % 10 := by simpa using hmem
          have := Nat.mod_lt (m + 1) (y := 10) (by omega)
          omega

theorem decimalBytes_digits (n : Nat) :
    ∀ d ∈ decimalBytes n, 48 ≤ d ∧ d ≤ 57 := by
  rw [decimalBytes]
  split
  · intro d hd
    simp at hd
    omega
  · exact decimalBytesAux_digits n

theorem decimalBytes_ne_nil (n : Nat) : decimalBytes n ≠ [] := by
  rw [decimalBytes]
  split
  · simp
  · next h =>
    match n, (by omega : 0 < n) with
    | m + 1, _ =>
      rw [decimalBytesAux, decimalBytesAux_append]
      simp

theorem decimalBytesAux_foldl (n : Nat) :
    ∀ a, (decimalBytesAux n []).foldl (fun acc d => acc * 10 + (d - 48)) a
      = a * 10 ^ (decimalBytesAux n []).length + n := by
  induction n using Nat.strong_induction_on with
  | _ n ih =>
    intro a
    match n with
    | 0 => simp [decimalBytesAux]
    | m + 1 =>
        have hlt : (m + 1) / 10 < m + 1 := Nat.div_lt_self (Nat.succ_pos m) (by omega)
        rw [decimalBytesAux, decimalBytesAux_append]
        rw [List.foldl_append, List.length_append]
        rw [ih ((m + 1) / 10) hlt a]
        simp only [List.foldl_cons, List.foldl_nil, List.length_cons, List.length_nil]
        have hd : 48 + (m + 1) % 10 - 48 = (m + 1) % 10 := by omega
        have hp : 10 ^ ((decimalBytesAux ((m + 1) / 10) []).length + (0 + 1))
            = 10 ^ (decimalBytesAux ((m + 1) / 10) []).length * 10 := by
          rw [pow_succ]
        rw [hd, hp, ← mul_assoc]
        generalize a * 10 ^ (decimalBytesAux ((m + 1) / 10) []).length = X
        omega

theorem decimalBytes_foldl (n : Nat) :
    (decimalBytes n).foldl (fun acc d => acc * 10 + (d - 48)) 0 = n := by
  rw [decimalBytes]
  split
  · simp_all
  · rw [decimalBytesAux_foldl]
    simp

theorem takeWhile_append_all {p : Nat → Bool} {l1 l2 : List Nat} (h : ∀ x ∈ l1, p x) :
    (l1 ++ l2).takeWhile p = l1 ++ l2.takeWhile p := by
  induction l1 with
  | nil => simp
  | cons a l ih =>
      have ha : p a = true := h a (by simp)
      have hl : ∀ x ∈ l, p x = true := fun x hx => h x (by simp [hx])
      simp [List.takeWhile_cons, ha, ih hl]

end Gitoxide

namespace Gitoxide

/-! ### Claim C8: `Time::write_to` format and the `-0000` round-trip -/

/-- C8: for every `Time` whose absolute offset is below 25 hours, `write_to` emits
exactly `<seconds> <sign>HHMM` with two-digit zero-padded hours and minutes and the
sign byte taken from the explicit flag; in particular `offset = 0` with `sign = Minus`
formats as `<seconds> -0000` and parses back to the identical triple. -/
theorem claim_C8 (t : Time) (h : t.offset.natAbs < 90000) :
    Time.write_to t = some (decimalBytes t.time ++ [32] ++ [signByte t.sign] ++
        twoDigitDec (t.offset.natAbs / 3600) ++ twoDigitDec (t.offset.natAbs % 3600 / 60)) ∧
    (t.offset = 0 → t.sign = .minus →
      Time.write_to t = some (decimalBytes t.time ++ [32, 45, 48, 48, 48, 48]) ∧
      parseTimeBytes (decimalBytes t.time ++ [32, 45, 48, 48, 48, 48]) = some t) := by
  have hsub : t.offset.natAbs - t.offset.natAbs / 3600 * 3600 = t.offset.natAbs % 3600 := by
    omega
  have hfmt : Time.write_to t = some (decimalBytes t.time ++ [32] ++ [signByte t.sign] ++
      twoDigitDec (t.offset.natAbs / 3600) ++ twoDigitDec (t.offset.natAbs % 3600 / 60)) := by
    rw [Time.write_to]
    simp only [if_neg (by omega : ¬ 25 ≤ t.offset.natAbs / 3600)]
    rw [hsub]
    rw [← decimal_two_digit (by omega : t.offset.natAbs / 3600 < 100)]
    rw [← decimal_two_digit (by omega : t.offset.natAbs % 3600 / 60 < 100)]
    simp [List.append_assoc]
  refine ⟨hfmt, fun hoff hsign => ?_⟩
  have hz : t.offset.natAbs = 0 := by rw [hoff]; rfl
  have hshape : decimalBytes t.time ++ [32] ++ [signByte t.sign] ++
      twoDigitDec (t.offset.natAbs / 3600) ++ twoDigitDec (t.offset.natAbs % 3600 / 60)
      = decimalBytes t.time ++ [32, 45, 48, 48, 48, 48] := by
    rw [hz, hsign]
    simp [twoDigitDec, signByte, List.append_assoc]
  constructor
  · rw [hfmt, hshape]
  · have hdig := decimalBytes_digits t.time
    have hts : (decimalBytes t.time ++ [32, 45, 48, 48, 48, 48]).takeWhile (· ≠ 32)
        = decimalBytes t.time := by
      rw [takeWhile_append_all (by
        intro x hx
        have := hdig x hx
        simp
        omega)]
      simp
    rw [parseTimeBytes]
    simp only [hts]
    rw [drop_len_append rfl]
    rw [parseTz, parseTzFields]
    have hcond : (32 : Nat) = 32 ∧ decimalBytes t.time ≠ [] ∧
        (decimalBytes t.time).all isDigitB ∧
        ((45 : Nat) = 43 ∨ (45 : Nat) = 45) ∧ isDigitB 48 ∧ isDigitB 48 ∧
        isDigitB 48 ∧ isDigitB 48 := by
      refine ⟨rfl, decimalBytes_ne_nil t.time, ?_, by decide, by decide, by decide,
        by decide, by decide⟩
      rw [List.all_eq_true]
      intro x hx
      have := hdig x hx
      simp [isDigitB]
      omega
    rw [if_pos hcond]
    rw [decimalBytes_foldl]
    cases t with
    | mk time offset sign =>
        simp only at hoff hsign
        subst hoff hsign
        norm_num

/-- Witness for C8 at the concrete time `(0, 0, Minus)`, formatting as `0 -0000`. -/
theorem claim_C8_witness :
    (Time.mk 0 0 .minus).offset.natAbs < 90000 ∧
    Time.write_to (Time.mk 0 0 .minus) = some (decimalBytes 0 ++ [32] ++ [signByte .minus] ++
        twoDigitDec 0 ++ twoDigitDec 0) ∧
    Time.write_to (Time.mk 0 0 .minus) = some (decimalBytes 0 ++ [32, 45, 48, 48, 48, 48]) ∧
    parseTimeBytes (decimalBytes 0 ++ [32, 45, 48, 48, 48, 48]) = some (Time.mk 0 0 .minus) := by
  have h := claim_C8 (Time.mk 0 0 .minus) (by decide)
  have h2 := h.2 rfl rfl
  exact ⟨by decide, h.1, h2.1, h2.2⟩

end Gitoxide

namespace Gitoxide

/-! ### Helper lemmas for the reflog parser (claim C7) -/

theorem expectByte_append {b : Nat} {L r : List Nat} (S : List Nat)
    (h : expectByte b L = some r) : expectByte b (L ++ S) = some (r ++ S) := by
  cases L with
  | nil => simp [expectByte] at h
  | cons x t =>
      rw [expectByte] at h
      by_cases hx : x = b
      · rw [if_pos hx] at h
        obtain rfl : t = r := Option.some.inj h
        rw [List.cons_append, expectByte, if_pos hx]
      · rw [if_neg hx] at h
        exact absurd h (by simp)

theorem expectByte_suffix {b : Nat} {L r : List Nat}
    (h : expectByte b L = some r) : r <:+ L := by
  cases L with
  | nil => simp [expectByte] at h
  | cons x t =>
      rw [expectByte] at h
      by_cases hx : x = b
      · rw [if_pos hx] at h
        obtain rfl : t = r := Option.some.inj h
        exact List.suffix_cons x t
      · rw [if_neg hx] at h
        exact absurd h (by simp)

theorem takeUntil2_append {a b : Nat} (S : List Nat) :
    ∀ {L p r : List Nat}, takeUntil2 a b L = some (p, r) →
      takeUntil2 a b (L ++ S) = some (p, r ++ S) := by
  intro L
  induction L with
  | nil => intro p r h; simp [takeUntil2] at h
  | cons x t ih =>
      intro p r h
      cases t with
      | nil => simp [takeUntil2] at h
      | cons y rest =>
          rw [takeUntil2] at h
          simp only [List.cons_append]
          rw [takeUntil2]
          by_cases hab : x = a ∧ y = b
          · rw [if_pos hab] at h
            rw [if_pos hab]
            simp only [Option.some.injEq, Prod.mk.injEq] at h
            obtain ⟨rfl, rfl⟩ := h
            simp
          · rw [if_neg hab] at h
            rw [if_neg hab]
            cases hy : takeUntil2 a b (y :: rest) with
            | none => rw [hy] at h; simp at h
            | some pr =>
                obtain ⟨pr1, pr2⟩ := pr
                rw [hy] at h
                simp only [Option.map_some', Option.some.injEq, Prod.mk.injEq] at h
                obtain ⟨rfl, rfl⟩ := h
                have ih2 := ih hy
                simp only [List.cons_append] at ih2
                rw [ih2]
                simp

theorem takeUntil2_suffix {a b : Nat} :
    ∀ {L p r : List Nat}, takeUntil2 a b L = some (p, r) → r <:+ L := by
  intro L
  induction L with
  | nil => intro p r h; simp [takeUntil2] at h
  | cons x t ih =>
      intro p r h
      cases t with
      | nil => simp [takeUntil2] at h
      | cons y rest =>
          rw [takeUntil2] at h
          by_cases hab : x = a ∧ y = b
          · rw [if_pos hab] at h
            simp only [Option.some.injEq, Prod.mk.injEq] at h
            obtain ⟨-, rfl⟩ := h
            exact (List.suffix_cons y rest).trans (List.suffix_cons x (y :: rest))
          · rw [if_neg hab] at h
            cases hy : takeUntil2 a b (y :: rest) with
            | none => rw [hy] at h; simp at h
            | some pr =>
                obtain ⟨pr1, pr2⟩ := pr
                rw [hy] at h
                simp only [Option.map_some', Option.some.injEq, Prod.mk.injEq] at h
                obtain ⟨-, rfl⟩ := h
                exact (ih hy).trans (List.suffix_cons x (y :: rest))

theorem takeUntilByte_append {b : Nat} (S : List Nat) :
    ∀ {L p r : List Nat}, takeUntilByte b L = some (p, r) →
      takeUntilByte b (L ++ S) = some (p, r ++ S) := by
  intro L
  induction L with
  | nil => intro p r h; simp [takeUntilByte] at h
  | cons x t ih =>
      intro p r h
      rw [takeUntilByte] at h
      simp only [List.cons_append]
      rw [takeUntilByte]
      by_cases hx : x = b
      · rw [if_pos hx] at h
        rw [if_pos hx]
        simp only [Option.some.injEq, Prod.mk.injEq] at h
        obtain ⟨rfl, rfl⟩ := h
        simp
      · rw [if_neg hx] at h
        rw [if_neg hx]
        cases hy : takeUntilByte b t with
        | none => rw [hy] at h; simp at h
        | some pr =>
            obtain ⟨pr1, pr2⟩ := pr
            rw [hy] at h
            simp only [Option.map_some', Option.some.injEq, Prod.mk.injEq] at h
            obtain ⟨rfl, rfl⟩ := h
            rw [ih hy]
            simp

theorem takeUntilByte_suffix {b : Nat} :
    ∀ {L p r : List Nat}, takeUntilByte b L = some (p, r) → r <:+ L := by
  intro L
  induction L with
  | nil => intro p r h; simp [takeUntilByte] at h
  | cons x t ih =>
      intro p r h
      rw [takeUntilByte] at h
      by_cases hx : x = b
      · rw [if_pos hx] at h
        simp only [Option.some.injEq, Prod.mk.injEq] at h
        obtain ⟨-, rfl⟩ := h
        exact List.suffix_cons x t
      · rw [if_neg hx] at h
        cases hy : takeUntilByte b t with
        | none => rw [hy] at h; simp at h
        | some pr =>
            obtain ⟨pr1, pr2⟩ := pr
            rw [hy] at h
            simp only [Option.map_some', Option.some.injEq, Prod.mk.injEq] at h
            obtain ⟨-, rfl⟩ := h
            exact (ih hy).trans (List.suffix_cons x t)

theorem hexHash40_append {L hx r : List Nat} (S : List Nat)
    (h : hexHash40 L = some (hx, r)) :
    hexHash40 (L ++ S) = some (hx, r ++ S) := by
  rw [hexHash40] at h
  by_cases hc : (L.take 40).length = 40 ∧ (L.take 40).all isHexDigitB
  · rw [if_pos hc] at h
    simp only [Option.some.injEq, Prod.mk.injEq] at h
    obtain ⟨rfl, rfl⟩ := h
    have hlen : 40 ≤ L.length := by
      have h1 := hc.1
      rw [List.length_take] at h1
      omega
    have ht : (L ++ S).take 40 = L.take 40 := List.take_append_of_le_length hlen
    have hd : (L ++ S).drop 40 = L.drop 40 ++ S := List.drop_append_of_le_length hlen
    rw [hexHash40, ht, hd, if_pos hc]
  · rw [if_neg hc] at h
    exact absurd h (by simp)

theorem hexHash40_suffix {L hx r : List Nat} (h : hexHash40 L = some (hx, r)) : r <:+ L := by
  rw [hexHash40] at h
  by_cases hc : (L.take 40).length = 40 ∧ (L.take 40).all isHexDigitB
  · rw [if_pos hc] at h
    simp only [Option.some.injEq, Prod.mk.injEq] at h
    obtain ⟨-, rfl⟩ := h
    exact List.drop_suffix 40 L
  · rw [if_neg hc] at h
    exact absurd h (by simp)

theorem parseTzSig_append {L : List Nat} {v : Int × Sign} {r : List Nat} (S : List Nat)
    (h : parseTzSig L = some (v, r)) :
    parseTzSig (L ++ S) = some (v, r ++ S) := by
  rcases L with _ | ⟨s, _ | ⟨d1, _ | ⟨d2, _ | ⟨d3, _ | ⟨d4, r4⟩⟩⟩⟩⟩
  · simp [parseTzSig] at h
  · simp [parseTzSig] at h
  · simp [parseTzSig] at h
  · simp [parseTzSig] at h
  · simp [parseTzSig] at h
  · rw [parseTzSig] at h
    by_cases hc : (s = 43 ∨ s = 45) ∧ isDigitB d1 ∧ isDigitB d2 ∧ isDigitB d3 ∧ isDigitB d4
    · rw [if_pos hc] at h
      simp only [Option.some.injEq, Prod.mk.injEq] at h
      obtain ⟨rfl, rfl⟩ := h
      simp only [List.cons_append]
      rw [parseTzSig, if_pos hc]
    · rw [if_neg hc] at h
      exact absurd h (by simp)

theorem parseTzSig_suffix {L : List Nat} {v : Int × Sign} {r : List Nat}
    (h : parseTzSig L = some (v, r)) : r <:+ L := by
  rcases L with _ | ⟨s, _ | ⟨d1, _ | ⟨d2, _ | ⟨d3, _ | ⟨d4, r4⟩⟩⟩⟩⟩
  · simp [parseTzSig] at h
  · simp [parseTzSig] at h
  · simp [parseTzSig] at h
  · simp [parseTzSig] at h
  · simp [parseTzSig] at h
  · rw [parseTzSig] at h
    by_cases hc : (s = 43 ∨ s = 45) ∧ isDigitB d1 ∧ isDigitB d2 ∧ isDigitB d3 ∧ isDigitB d4
    · rw [if_pos hc] at h
      simp only [Option.some.injEq, Prod.mk.injEq] at h
      obtain ⟨-, rfl⟩ := h
      exact (List.suffix_cons d4 r4).trans ((List.suffix_cons d3 _).trans
        ((List.suffix_cons d2 _).trans ((List.suffix_cons d1 _).trans (List.suffix_cons s _))))
    · rw [if_neg hc] at h
      exact absurd h (by simp)

theorem signatureDecode_append {L : List Nat} {sig : SignatureB} {r : List Nat} (S : List Nat)
    (h : signatureDecode L = some (sig, r)) :
    signatureDecode (L ++ S) = some (sig, r ++ S) := by
  rw [signatureDecode] at h
  cases h1 : takeUntil2 32 60 L with
  | none => rw [h1] at h; simp at h
  | some pn =>
    obtain ⟨nm, r1⟩ := pn
    rw [h1] at h
    simp only [Option.some_bind] at h
    cases h2 : takeUntil2 62 32 r1 with
    | none => rw [h2] at h; simp at h
    | some pe =>
      obtain ⟨em, r2⟩ := pe
      rw [h2] at h
      simp only [Option.some_bind] at h
      cases h3 : takeUntilByte 32 r2 with
      | none => rw [h3] at h; simp at h
      | some pt =>
        obtain ⟨ts, r3⟩ := pt
        rw [h3] at h
        simp only [Option.some_bind] at h
        by_cases hts : ts ≠ [] ∧ ts.all isDigitB
        · rw [if_pos hts] at h
          cases h4 : parseTzSig r3 with
          | none => rw [h4] at h; simp at h
          | some pz =>
            obtain ⟨tz, r4⟩ := pz
            rw [h4] at h
            simp only [Option.map_some', Option.some.injEq, Prod.mk.injEq] at h
            obtain ⟨rfl, rfl⟩ := h
            rw [signatureDecode, takeUntil2_append S h1]
            simp only [Option.some_bind]
            rw [takeUntil2_append S h2]
            simp only [Option.some_bind]
            rw [takeUntilByte_append S h3]
            simp only [Option.some_bind]
            rw [if_pos hts, parseTzSig_append S h4]
            simp
        · rw [if_neg hts] at h
          exact absurd h (by simp)

theorem signatureDecode_suffix {L : List Nat} {sig : SignatureB} {r : List Nat}
    (h : signatureDecode L = some (sig, r)) : r <:+ L := by
  rw [signatureDecode] at h
  cases h1 : takeUntil2 32 60 L with
  | none => rw [h1] at h; simp at h
  | some pn =>
    obtain ⟨nm, r1⟩ := pn
    rw [h1] at h
    simp only [Option.some_bind] at h
    cases h2 : takeUntil2 62 32 r1 with
    | none => rw [h2] at h; simp at h
    | some pe =>
      obtain ⟨em, r2⟩ := pe
      rw [h2] at h
      simp only [Option.some_bind] at h
      cases h3 : takeUntilByte 32 r2 with
      | none => rw [h3] at h; simp at h
      | some pt =>
        obtain ⟨ts, r3⟩ := pt
        rw [h3] at h
        simp only [Option.some_bind] at h
        by_cases hts : ts ≠ [] ∧ ts.all isDigitB
        · rw [if_pos hts] at h
          cases h4 : parseTzSig r3 with
          | none => rw [h4] at h; simp at h
          | some pz =>
            obtain ⟨tz, r4⟩ := pz
            rw [h4] at h
            simp only [Option.map_some', Option.some.injEq, Prod.mk.injEq] at h
            obtain ⟨-, rfl⟩ := h
            exact (((parseTzSig_suffix h4).trans (takeUntilByte_suffix h3)).trans
              (takeUntil2_suffix h2)).trans (takeUntil2_suffix h1)
        · rw [if_neg hts] at h
          exact absurd h (by simp)

theorem message_no_nl {r : List Nat} (h : (10:Nat) ∉ r) : message r = (r, []) := by
  by_cases hr : r = []
  · subst hr
    rfl
  · have hall : ∀ x ∈ r, (fun x => decide (x ≠ 10)) x = true := by
      intro x hx
      simp only [decide_eq_true_eq]
      intro hx10
      exact h (hx10 ▸ hx)
    have ho : r.takeWhile (fun x => decide (x ≠ 10)) = r := by
      have := @takeWhile_append_all (fun x => decide (x ≠ 10)) r [] hall
      simpa using this
    simp only [message, if_neg hr]
    rw [ho, List.drop_length]
    rfl

theorem message_append_nl {r : List Nat} (h : (10:Nat) ∉ r) : message (r ++ [10]) = (r, []) := by
  have hne : r ++ [10] ≠ [] := by simp
  have hall : ∀ x ∈ r, (fun x => decide (x ≠ 10)) x = true := by
    intro x hx
    simp only [decide_eq_true_eq]
    intro hx10
    exact h (hx10 ▸ hx)
  have ho : (r ++ [10]).takeWhile (fun x => decide (x ≠ 10)) = r := by
    rw [takeWhile_append_all hall]
    simp
  simp only [message, if_neg hne]
  rw [ho, drop_len_append rfl]
  simp [afterMsg]

end Gitoxide

namespace Gitoxide

/-! ### Claim C7: reflog lines parse identically with and without trailing newline -/

/-- C7: a well-formed reflog line (one that `decode::one` accepts and that contains
no newline) is fully consumed, and appending a trailing newline parses to the very
same record, again fully consumed; this covers the empty-message forms. -/
theorem claim_C7 (L : List Nat) (rec : LineB) (rest : List Nat)
    (hno : (10:Nat) ∉ L) (hp : reflogParseOne L = some (rec, rest)) :
    rest = [] ∧ reflogParseOne (L ++ [10]) = some (rec, []) := by
  rw [reflogParseOne] at hp
  cases h1 : hexHash40 L with
  | none => rw [h1] at hp; simp at hp
  | some p1 =>
    obtain ⟨old, r1⟩ := p1
    rw [h1] at hp
    simp only [Option.some_bind] at hp
    cases h2 : expectByte 32 r1 with
    | none => rw [h2] at hp; simp at hp
    | some r1b =>
      rw [h2] at hp
      simp only [Option.some_bind] at hp
      cases h3 : hexHash40 r1b with
      | none => rw [h3] at hp; simp at hp
      | some p2 =>
        obtain ⟨new, r2⟩ := p2
        rw [h3] at hp
        simp only [Option.some_bind] at hp
        cases h4 : expectByte 32 r2 with
        | none => rw [h4] at hp; simp at hp
        | some r2b =>
          rw [h4] at hp
          simp only [Option.some_bind] at hp
          cases h5 : signatureDecode r2b with
          | none => rw [h5] at hp; simp at hp
          | some ps =>
            obtain ⟨sig, r3⟩ := ps
            rw [h5] at hp
            simp only [Option.some_bind] at hp
            have hsuf : r3 <:+ L :=
              ((((signatureDecode_suffix h5).trans (expectByte_suffix h4)).trans
                (hexHash40_suffix h3)).trans (expectByte_suffix h2)).trans (hexHash40_suffix h1)
            have h10r3 : (10:Nat) ∉ r3 := fun hm => hno (hsuf.subset hm)
            rw [reflogParseOne, hexHash40_append [10] h1]
            simp only [Option.some_bind]
            rw [expectByte_append [10] h2]
            simp only [Option.some_bind]
            rw [hexHash40_append [10] h3]
            simp only [Option.some_bind]
            rw [expectByte_append [10] h4]
            simp only [Option.some_bind]
            rw [signatureDecode_append [10] h5]
            simp only [Option.some_bind]
            by_cases hh : r3.head? = some 9
            · obtain ⟨tl, rfl⟩ : ∃ tl, r3 = 9 :: tl := by
                cases r3 with
                | nil => simp at hh
                | cons c tl =>
                    simp only [List.head?_cons, Option.some.injEq] at hh
                    exact ⟨tl, by rw [hh]⟩
              have h10tl : (10:Nat) ∉ tl := fun hm => h10r3 (by simp [hm])
              rw [if_pos hh] at hp
              simp only [List.tail_cons, message_no_nl h10tl, Option.some.injEq,
                Prod.mk.injEq] at hp
              obtain ⟨hrec, hrest⟩ := hp
              subst hrest
              refine ⟨rfl, ?_⟩
              have hh2 : ((9 :: tl) ++ [10]).head? = some 9 := by simp
              rw [if_pos hh2]
              simp only [List.cons_append, List.tail_cons, message_append_nl h10tl]
              rw [← hrec]
            · rw [if_neg hh] at hp
              simp only [message_no_nl h10r3] at hp
              by_cases hsep : msgSepOk r3 = true
              · rw [if_pos hsep] at hp
                simp only [Option.some.injEq, Prod.mk.injEq] at hp
                obtain ⟨hrec, hrest⟩ := hp
                subst hrest
                refine ⟨rfl, ?_⟩
                have hh2 : ¬ (r3 ++ [10]).head? = some 9 := by
                  cases r3 with
                  | nil => simp
                  | cons c tl =>
                      simp only [List.cons_append, List.head?_cons, Option.some.injEq]
                      intro hc
                      exact hh (by simp [hc])
                rw [if_neg hh2]
                simp only [message_append_nl h10r3]
                rw [if_pos hsep]
                rw [← hrec]
              · rw [if_neg hsep] at hp
                simp at hp

/-- Witness for C7 at the fixture line with an empty message
`<40 zeros> <40 zeros> name <foo@example.com> 1234567890 -0000`. -/
theorem claim_C7_witness :
    ((10:Nat) ∉ (List.replicate 40 48 ++ [32] ++ List.replicate 40 48 ++ [32] ++
        strB "name <foo@example.com> 1234567890 -0000")) ∧
    ([] : List Nat) = [] ∧
    reflogParseOne ((List.replicate 40 48 ++ [32] ++ List.replicate 40 48 ++ [32] ++
        strB "name <foo@example.com> 1234567890 -0000") ++ [10]) =
      some (⟨List.replicate 40 48, List.replicate 40 48,
        ⟨strB "name", strB "foo@example.com", ⟨1234567890, 0, .minus⟩⟩, []⟩, []) :=
  ⟨by decide,
    claim_C7 _ (⟨List.replicate 40 48, List.replicate 40 48,
        ⟨strB "name", strB "foo@example.com", ⟨1234567890, 0, .minus⟩⟩, []⟩) []
      (by decide) (by decide)⟩

end Gitoxide

namespace Gitoxide

/-! ### Claim C1: handshake capability detection -/

theorem findByteIdx_append_cons {b : Nat} {p : List Nat} (hp : b ∉ p) (s : List Nat) :
    findByteIdx b (p ++ b :: s) = some p.length := by
  induction p with
  | nil => simp [findByteIdx]
  | cons x t ih =>
      have hx : ¬ x = b := fun hxe => hp (by simp [hxe])
      rw [List.cons_append, findByteIdx, if_neg hx, ih (fun hm => hp (by simp [hm]))]
      simp

/-- C1 counterexample: the peeked first line `version 3` begins with `version ` and
does not end with ` 2`; the claim requires V1 with the ref list present, but the
code selects the V2 path and the handshake fails with an unsupported-version
error instead. -/
theorem claim_C1_counterexample :
    detectedProtocol (strB "version 3") = Protocol.v2 ∧
    v1_or_v2_as_detected (.data (strB "version 3")) [] =
      some (.error (.cap .unsupportedVersion)) := by
  refine ⟨by decide, ?_⟩
  rfl

/-- C1 amended: a `version `-prefixed first line that does not end in ` 1` takes the
V2 path, which succeeds (capabilities joined from the following lines, no refs)
exactly when the line is precisely `version 2` and fails otherwise; every other
first line — including `version 1` and lines without a version — takes the V1 path,
in which a client that desired V2 transparently downgrades: with a NUL-delimited
capability tail it returns protocol V1 with the ref list present, and without any
NUL it fails with a missing-delimiter error. -/
theorem claim_C1_amended (d fl : List Nat) (laterLines : List (List Nat))
    (hfl : textFromBytes d = some fl) :
    ((startsWithL (strB "version ") fl ∧ ¬ endsWithL (strB " 1") fl) →
      (fl = strB "version 2" →
        v1_or_v2_as_detected (.data d) laterLines =
          some (.ok ⟨List.intercalate [10] laterLines, false, .v2⟩)) ∧
      (fl ≠ strB "version 2" →
        ∃ e, v1_or_v2_as_detected (.data d) laterLines = some (.error (.cap e)))) ∧
    (¬ (startsWithL (strB "version ") fl ∧ ¬ endsWithL (strB " 1") fl) →
      (∀ p s, fl = p ++ 0 :: s → (0:Nat) ∉ p → s ≠ [] →
        handshakeDetect .v2 (.data d) laterLines = some (.ok ⟨s, true, .v1⟩)) ∧
      (findByteIdx 0 fl = none →
        v1_or_v2_as_detected (.data d) laterLines =
          some (.error (.cap .missingDelimitingNullByte)))) := by
  have hv12 : v1_or_v2_as_detected (.data d) laterLines
      = some (detectOnText laterLines (some fl)) := by
    rw [v1_or_v2_as_detected]
    simp [to_text, PacketLineB.as_slice, hfl]
  constructor
  · intro hvv
    have hdet : detectedProtocol fl = .v2 := by
      rw [detectedProtocol, if_pos hvv.1, if_neg hvv.2]
    have hbody : detectOnText laterLines (some fl)
        = v2Outcome (capabilitiesFromLines (fl :: laterLines)) := by
      rw [detectOnText, hdet, if_neg (by decide : ¬ (Protocol.v2 = Protocol.v1))]
    constructor
    · intro hfl2
      subst hfl2
      rw [hv12, hbody, capabilitiesFromLines]
      have hidx : findByteIdx 32 (strB "version 2") = some 7 := by decide
      rw [hidx, fromLinesAfterIdx]
      rw [if_neg (by decide), if_neg (by decide)]
      rfl
    · intro hne
      rw [hv12, hbody, capabilitiesFromLines]
      cases hidx : findByteIdx 32 fl with
      | none =>
          exact ⟨.malformattedVersionLine, by rw [fromLinesAfterIdx]; rfl⟩
      | some i =>
          rw [fromLinesAfterIdx]
          by_cases hname : fl.take i ≠ strB "version"
          · exact ⟨.malformattedVersionLine, by rw [if_pos hname]; rfl⟩
          · rw [if_neg hname]
            by_cases hval : fl.drop i ≠ strB " 2"
            · exact ⟨.unsupportedVersion, by rw [if_pos hval]; rfl⟩
            · exfalso
              apply hne
              have h1 : fl.take i = strB "version" := not_not.mp hname
              have h2 : fl.drop i = strB " 2" := not_not.mp hval
              have h3 := List.take_append_drop i fl
              rw [h1, h2] at h3
              rw [← h3]
              rfl
  · intro hv1
    have hdet : detectedProtocol fl = .v1 := by
      rw [detectedProtocol]
      by_cases hs : startsWithL (strB "version ") fl = true
      · rw [if_pos hs, if_pos (by
          by_contra hend
          exact hv1 ⟨hs, hend⟩)]
      · rw [if_neg hs]
    have hbody : detectOnText laterLines (some fl)
        = v1Outcome (capabilitiesFromBytes fl) := by
      rw [detectOnText, hdet, if_pos rfl]
    constructor
    · intro p s hflps hp hs
      subst hflps
      rw [handshakeDetect, hv12, hbody, capabilitiesFromBytes, findByteIdx_append_cons hp]
      rw [fromBytesAfterIdx]
      have hlen : ¬ (p.length + 1 = (p ++ 0 :: s).length) := by
        simp only [List.length_append, List.length_cons]
        have : 0 < s.length := List.length_pos.mpr hs
        omega
      rw [if_neg hlen]
      have hdrop : (p ++ 0 :: s).drop (p.length + 1) = s := by
        have hre : p ++ 0 :: s = (p ++ [0]) ++ s := by simp
        rw [hre]
        exact drop_len_append (by simp)
      rw [hdrop]
      rfl
    · intro hnone
      rw [hv12, hbody, capabilitiesFromBytes, hnone, fromBytesAfterIdx]
      rfl

/-- Witness for the amended C1 theorem: the first line `version 2` followed by one
capability line yields protocol V2 with the joined capabilities and no refs. -/
theorem claim_C1_amended_witness :
    v1_or_v2_as_detected (.data (strB "version 2")) [strB "agent=x"] =
      some (.ok ⟨List.intercalate [10] [strB "agent=x"], false, .v2⟩) :=
  ((claim_C1_amended (strB "version 2") (strB "version 2") [strB "agent=x"]
    (by decide)).1 (by decide)).1 rfl

end Gitoxide

namespace Gitoxide

/-! ### Claims C2, C3, C9: the reference transaction engine -/

/-- C2 (code bug): the `previous` expectation is not enforced as specified. An
update edit with any expected `previous` — here the null id, which the claim says
means "don't care" — hits the `todo!` panic instead of being checked or skipped;
and a delete of an absent ref with the null id expected fails with
`DeleteReferenceMustExist` instead of succeeding. -/
theorem claim_C2_codebug :
    lock_ref_and_apply_change envTriv
        ⟨⟨strB "refs/heads/main",
          Change.update (some (Target.peeled nullOid)) (Target.peeled nullOid), false⟩,
          none, none⟩
      = .panic "todo: check previous value, if object id is not null" ∧
    lock_ref_and_apply_change envTriv
        ⟨⟨strB "refs/heads/gone",
          Change.delete (some (Target.peeled nullOid)) RefLogMode.andReference, false⟩,
          none, none⟩
      = .err (.deleteReferenceMustExist (strB "refs/heads/gone")) := by
  constructor
  · rfl
  · rfl

/-- C3 (code bug): the staged content of an update is not what the claim requires.
For a peeled target the code stages the raw 20 id bytes — not the 40 hex digits —
and appends no newline; for a symbolic target it stages `ref: <name>` without the
trailing newline. The lock is closed with that content. -/
theorem claim_C3_codebug :
    (lock_ref_and_apply_change envTriv
        ⟨⟨strB "refs/heads/main", Change.update none (Target.peeled (List.range 20)), false⟩,
          none, none⟩
      = .ok ⟨⟨strB "refs/heads/main", Change.update none (Target.peeled (List.range 20)), false⟩,
          some (.closedWithContent (List.range 20)), none⟩) ∧
    List.range 20 ≠ sha1HexLower (List.range 20) ++ [10] ∧
    (lock_ref_and_apply_change envTriv
        ⟨⟨strB "HEAD", Change.update none (Target.symbolic (strB "refs/heads/main")), false⟩,
          none, none⟩
      = .ok ⟨⟨strB "HEAD", Change.update none (Target.symbolic (strB "refs/heads/main")), false⟩,
          some (.closedWithContent (strB "ref: " ++ strB "refs/heads/main")), none⟩) ∧
    strB "ref: " ++ strB "refs/heads/main" ≠ (strB "ref: " ++ strB "refs/heads/main") ++ [10] := by
  refine ⟨rfl, by decide, rfl, by decide⟩

theorem prepare_ok_state (env : StoreEnv) (tx tx2 : TransactionM)
    (h : Transaction.prepare env tx = .ok tx2) : tx2.state = .prepared := by
  rw [Transaction.prepare] at h
  cases hs : tx.state with
  | prepared =>
      rw [hs] at h
      simp only [RRes.ok.injEq] at h
      rw [← h, hs]
  | opened =>
      rw [hs] at h
      cases hpp : env.preProcess tx.updates with
      | error e => rw [hpp] at h; simp at h
      | ok ups =>
          rw [hpp] at h
          simp only at h
          cases hl : lockAll env ups with
          | ok ups2 =>
              rw [hl] at h
              simp only [RRes.bind] at h
              cases hi : invert_parent_links ups2 with
              | none => rw [hi] at h; simp at h
              | some ups3 =>
                  rw [hi] at h
                  simp only [RRes.ok.injEq] at h
                  rw [← h]
          | err x => rw [hl] at h; simp [RRes.bind] at h
          | panic m => rw [hl] at h; simp [RRes.bind] at h

/-- C9: `prepare` is the identity on an already-prepared transaction, preparing is
idempotent as an operation (`prepare` after a successful `prepare` changes
nothing), and `commit` on an open transaction is exactly `prepare` followed by
`commit` of its result. -/
theorem claim_C9 (env : StoreEnv) (tx : TransactionM) :
    (tx.state = .prepared → Transaction.prepare env tx = .ok tx) ∧
    (∀ tx2, Transaction.prepare env tx = .ok tx2 → Transaction.prepare env tx2 = .ok tx2) ∧
    (tx.state = .opened →
      Transaction.commit env tx = (Transaction.prepare env tx).bind (Transaction.commit env)) := by
  refine ⟨?_, ?_, ?_⟩
  · intro h
    rw [Transaction.prepare, h]
  · intro tx2 h
    rw [Transaction.prepare, prepare_ok_state env tx tx2 h]
  · intro h
    have hco : Transaction.commit env tx
        = (Transaction.prepare env tx).bind (commitPrepared env) := by
      rw [Transaction.commit, h]
    rw [hco]
    cases hp : Transaction.prepare env tx with
    | ok tx2 =>
        simp only [RRes.bind]
        have hc2 : Transaction.commit env tx2 = commitPrepared env tx2 := by
          rw [Transaction.commit, prepare_ok_state env tx tx2 hp]
        rw [hc2]
    | err e => rfl
    | panic m => rfl

/-- Witness for C9: the empty transaction in both states under the trivial
environment. -/
theorem claim_C9_witness :
    Transaction.prepare envTriv ⟨[], TxState.prepared⟩ = .ok ⟨[], TxState.prepared⟩ ∧
    Transaction.prepare envTriv ⟨[], TxState.prepared⟩ = .ok ⟨[], TxState.prepared⟩ ∧
    Transaction.commit envTriv ⟨[], TxState.opened⟩ =
      (Transaction.prepare envTriv ⟨[], TxState.opened⟩).bind (Transaction.commit envTriv) :=
  ⟨(claim_C9 envTriv ⟨[], TxState.prepared⟩).1 rfl,
   (claim_C9 envTriv ⟨[], TxState.opened⟩).2.1 ⟨[], TxState.prepared⟩ rfl,
   (claim_C9 envTriv ⟨[], TxState.opened⟩).2.2 rfl⟩

end Gitoxide
